import Mathlib

/-!
Shallow embedding of the core of the Multilingual RAG system
(`src/chunker.py`, `src/retriever.py`, `src/rag_system.py`,
`src/document_processor.py`), together with theorems settling the frozen
claims C1-C10 about it.

Strings are modelled as `List Char`, Python floats as exact numbers
(`ℚ` where the code is finite arithmetic, `ℝ` where square roots occur),
Python ints as `ℤ` where negative values can reach a slice.
-/

/-! ### Python string/list primitives -/

/-- Python's `\s` character class (ASCII part): space, tab, newline,
carriage return, vertical tab, form feed. -/
def isPySpace (c : Char) : Bool :=
  c == ' ' || c == '\t' || c == '\n' || c == '\r' || c == '\x0b' || c == '\x0c'

/-- Left part of Python `str.strip()`: drop leading whitespace. -/
def stripLeft (l : List Char) : List Char := l.dropWhile isPySpace

/-- Right part of Python `str.strip()`: drop trailing whitespace. -/
def stripRight (l : List Char) : List Char := (l.reverse.dropWhile isPySpace).reverse

/-- Python `str.strip()`: drop whitespace from both ends. -/
def pstrip (l : List Char) : List Char := stripRight (stripLeft l)

/-- Python slice `l[s:]` for an arbitrary (possibly negative) integer `s`:
a negative start counts from the end, clamped at 0; a nonnegative start is
clamped at `len(l)`. -/
def pySliceFrom (l : List α) (s : ℤ) : List α :=
  if s < 0 then l.drop (l.length - min (-s).toNat l.length)
  else l.drop (min s.toNat l.length)

/-- All characters that are not Python whitespace, in order.  Used to state
round-trip-modulo-whitespace properties. -/
def nonWs (l : List Char) : List Char := l.filter (fun c => !isPySpace c)

/-! ### Chunker (`src/chunker.py`, `recursive_character_text_splitter`) -/

/-- Worker for `re.sub(r'\s+', ' ', text)`: each maximal run of whitespace
becomes a single space.  The flag records whether the previous character
was part of a whitespace run already rewritten. -/
def collapseWsAux : Bool → List Char → List Char
  | _, [] => []
  | prev, c :: rest =>
    if isPySpace c then
      if prev then collapseWsAux true rest else ' ' :: collapseWsAux true rest
    else c :: collapseWsAux false rest

/-- `re.sub(r'\s+', ' ', text)`. -/
def collapseWs (l : List Char) : List Char := collapseWsAux false l

/-- `chunker.py` lines 30-31: `re.sub(r'\s+', ' ', text).strip()` followed by
`re.sub(r'\n\s*\n', '\n\n', text)`.  The second substitution can never match:
the first one already replaced every newline by a space, so it is the
identity on its input and is not represented separately. -/
def normalizeText (l : List Char) : List Char := pstrip (collapseWs l)

/-- The separator tiers of `chunker.py` lines 21-27, in order. -/
inductive SepKind
  | sentence   -- r"(?<=[।?!])\s+"
  | para       -- r"\n\n+"
  | newline    -- r"\n"
  | ws         -- r"\s"
  | chars      -- ""  (character-level fallback)
deriving DecidableEq

/-- The sentence terminators of the lookbehind class `[।?!]`. -/
def isEnder (c : Char) : Bool := c == '।' || c == '?' || c == '!'

/-- `re.split(r"(?<=[।?!])\s+", s)`: split at each maximal whitespace run
that is immediately preceded by a sentence terminator; the run itself is
removed.  `acc` holds the current part reversed; the flag is true while the
remainder of a matched whitespace run is being consumed (in which case
`acc` is empty). -/
def splitSentAux (skip : Bool) (acc : List Char) : List Char → List (List Char)
  | [] => [acc.reverse]
  | c :: rest =>
    if skip && isPySpace c then splitSentAux true acc rest
    else if isPySpace c && isEnder (acc.headD ' ') then
      acc.reverse :: splitSentAux true [] rest
    else splitSentAux false (c :: acc) rest

def splitSentRun (l : List Char) : List (List Char) := splitSentAux false [] l

/-- `re.split(r"\n\n+", s)`: split at each maximal run of at least two
newlines; the run is removed.  The flag is true while the remainder of a
matched newline run is being consumed. -/
def splitParaAux (skip : Bool) (acc : List Char) : List Char → List (List Char)
  | [] => [acc.reverse]
  | c :: rest =>
    if skip && c == '\n' then splitParaAux true acc rest
    else if c == '\n' && rest.headD ' ' == '\n' then
      acc.reverse :: splitParaAux true [] rest
    else splitParaAux false (c :: acc) rest

def splitParaRun (l : List Char) : List (List Char) := splitParaAux false [] l

/-- `re.split` with a single-character class: split at every matching
character, which is removed; empty parts are produced between adjacent
matches. -/
def splitEachRun (p : Char → Bool) (acc : List Char) : List Char → List (List Char)
  | [] => [acc.reverse]
  | c :: rest =>
    if p c then acc.reverse :: splitEachRun p [] rest
    else splitEachRun p (c :: acc) rest

/-- `re.split(pattern, segment)` for each separator tier.  For the empty
pattern, Python returns an empty part, every single character, and a final
empty part. -/
def sepSplit : SepKind → List Char → List (List Char)
  | .sentence, l => splitSentRun l
  | .para, l => splitParaRun l
  | .newline, l => splitEachRun (· == '\n') [] l
  | .ws, l => splitEachRun isPySpace [] l
  | .chars, l => [[]] ++ l.map (fun c => [c]) ++ [[]]

/-- The separator text re-attached to every part except the last
(`chunker.py` lines 51-59); nothing is attached at the character tier. -/
def sepAttach : SepKind → List Char
  | .sentence => [' ']
  | .para => ['\n', '\n']
  | .newline => ['\n']
  | .ws => [' ']
  | .chars => []

/-- The per-part loop of `_split_recursively` (`chunker.py` lines 45-66):
skip parts that strip to empty, re-attach the separator to every part except
the last, and recurse (through `f`, the splitter for the remaining tiers)
into parts still longer than `chunk_size`. -/
def splitRecParts (cs : ℕ) (f : List Char → List (List Char)) (att : List Char) :
    List (List Char) → List (List Char)
  | [] => []
  | [p] => if pstrip p = [] then [] else if cs < p.length then f p else [p]
  | p :: q :: ps =>
    (if pstrip p = [] then []
     else
       let p' := p ++ att
       if cs < p'.length then f p' else [p']) ++ splitRecParts cs f att (q :: ps)

/-- The separator list handed to the initial `_split_recursively` call. -/
def theSeps : List SepKind := [.sentence, .para, .newline, .ws, .chars]

/-- `_split_recursively(segment, current_separators)` (`chunker.py`
lines 34-66). -/
def splitRecursively (cs : ℕ) : List SepKind → List Char → List (List Char)
  | [], seg => [seg]
  | sep :: rest, seg =>
    if seg.length ≤ cs then [seg]
    else splitRecParts cs (splitRecursively cs rest) (sepAttach sep) (sepSplit sep seg)

/-- The merge pass of `chunker.py` lines 70-91: accumulate parts into
`current`, closing (strip and emit) the chunk when the length test fires,
and seeding the next chunk with the last `chunk_overlap` characters when
overlap is enabled.  The boolean term of line 74 is the `ℕ`-valued
`extra`. -/
def mergeParts (cs ov : ℕ) : List (List Char) → List (List Char) → List Char →
    List (List Char)
  | [], finals, current =>
    if pstrip current ≠ [] then finals ++ [pstrip current] else finals
  | p :: ps, finals, current =>
    let extra : ℕ := if 0 < finals.length ∧ 0 < ov then 1 else 0
    if cs < current.length + p.length + extra then
      let finals' := if pstrip current ≠ [] then finals ++ [pstrip current] else finals
      let current' :=
        if 0 < ov ∧ ov < current.length then
          pstrip (pySliceFrom current (-(ov : ℤ))) ++ ' ' :: pstrip p
        else pstrip p
      mergeParts cs ov ps finals' current'
    else
      mergeParts cs ov ps finals
        ((if current ≠ [] then current ++ [' '] else current) ++ pstrip p)

/-- The refinement loop of `chunker.py` lines 95-99: while a chunk exceeds
`chunk_size`, emit its first `chunk_size` characters and continue with
`chunk[chunk_size - chunk_overlap:]` (a Python slice whose index may be
negative or zero when `chunk_overlap ≥ chunk_size`).  The Python `while`
loop does not terminate in that regime; the model cuts it off with `fuel`,
which is chosen large enough to be unreachable whenever
`chunk_overlap < chunk_size`. -/
def refineChunk (cs ov : ℕ) : ℕ → List Char → List (List Char)
  | 0, chunk => [chunk]
  | fuel + 1, chunk =>
    if cs < chunk.length then
      chunk.take cs :: refineChunk cs ov fuel (pySliceFrom chunk ((cs : ℤ) - (ov : ℤ)))
    else if chunk ≠ [] then [chunk] else []

/-- `recursive_character_text_splitter(text, chunk_size, chunk_overlap)`
(`chunker.py` lines 4-102). -/
def recursive_character_text_splitter (text : List Char) (chunk_size chunk_overlap : ℕ) :
    List (List Char) :=
  if text = [] then []
  else
    let t := normalizeText text
    let raw := splitRecursively chunk_size theSeps t
    let finals := mergeParts chunk_size chunk_overlap raw [] []
    let refined := finals.flatMap
      (fun c => refineChunk chunk_size chunk_overlap (c.length + 1) c)
    refined.filter (fun c => decide (pstrip c ≠ []))

/-! ### Document processor (`src/document_processor.py`) -/

/-- Python `str.isalpha`, restricted to the character ranges this
development uses: ASCII letters plus the letters (general category Lo) of
the Bengali Unicode block U+0980-U+09FF.  Bengali digits (U+09E6-U+09EF),
combining signs and currency marks are in the block but are not
alphabetic, exactly as in Python. -/
def pyIsAlpha (c : Char) : Bool :=
  ('a' ≤ c && c ≤ 'z') || ('A' ≤ c && c ≤ 'Z')
  || (0x0985 ≤ c.toNat && c.toNat ≤ 0x098C) || (0x098F ≤ c.toNat && c.toNat ≤ 0x0990)
  || (0x0993 ≤ c.toNat && c.toNat ≤ 0x09A8) || (0x09AA ≤ c.toNat && c.toNat ≤ 0x09B0)
  || c.toNat == 0x09B2 || (0x09B6 ≤ c.toNat && c.toNat ≤ 0x09B9)
  || c.toNat == 0x09BD || c.toNat == 0x09CE
  || (0x09DC ≤ c.toNat && c.toNat ≤ 0x09DD) || (0x09DF ≤ c.toNat && c.toNat ≤ 0x09E1)
  || (0x09F0 ≤ c.toNat && c.toNat ≤ 0x09F1) || c.toNat == 0x09FC

/-- Membership in the Bengali Unicode block `ঀ-৿` (any character,
alphabetic or not). -/
def inBengaliBlock (c : Char) : Bool := 0x0980 ≤ c.toNat && c.toNat ≤ 0x09FF

/-- Python `\w` (word character), over the same ranges as `pyIsAlpha`:
letters, digits (ASCII and Bengali) and underscore. -/
def pyIsWordChar (c : Char) : Bool :=
  pyIsAlpha c || ('0' ≤ c && c ≤ '9') || (0x09E6 ≤ c.toNat && c.toNat ≤ 0x09EF) || c == '_'

/-- Python `str.replace([x,y], [z])`: rewrite non-overlapping occurrences of
the two-character pattern left to right. -/
def replacePair (x y z : Char) : List Char → List Char
  | [] => []
  | [c] => [c]
  | c :: d :: rest =>
    if c = x ∧ d = y then z :: replacePair x y z rest
    else c :: replacePair x y z (d :: rest)

/-- `DocumentProcessor.clean_text` (`document_processor.py` lines 34-49):
collapse whitespace, drop characters outside
`[^\w\sঀ-৿।,;:!?.\-]`, fix doubled danda and doubled spaces,
then strip. -/
def clean_text (t : List Char) : List Char :=
  let t1 := collapseWs t
  let t2 := t1.filter (fun c =>
    pyIsWordChar c || isPySpace c || inBengaliBlock c ||
    c == '।' || c == ',' || c == ';' || c == ':' ||
    c == '!' || c == '?' || c == '.' || c == '-')
  let t3 := replacePair '।' '।' '।' t2
  let t4 := replacePair ' ' ' ' ' ' t3
  pstrip t4

/-- The terminator class of `re.split(r'[।.!?]+', s)`. -/
def isTermChar (c : Char) : Bool := c == '।' || c == '.' || c == '!' || c == '?'

/-- `re.split(r'[।.!?]+', s)`: split at each maximal run of sentence
terminators; the run is removed.  The flag is true while the remainder of
a matched terminator run is being consumed. -/
def splitTermAux (skip : Bool) (acc : List Char) : List Char → List (List Char)
  | [] => [acc.reverse]
  | c :: rest =>
    if skip && isTermChar c then splitTermAux true acc rest
    else if isTermChar c then acc.reverse :: splitTermAux true [] rest
    else splitTermAux false (c :: acc) rest

def splitTermRuns (l : List Char) : List (List Char) := splitTermAux false [] l

/-- A chunk record as built by `DocumentProcessor.chunk_text`:
`{'content': ..., 'length': ..., 'id': ...}`. -/
structure DPChunk where
  content : List Char
  length : ℕ
  id : ℕ
deriving DecidableEq

/-- Python `str.split()` (no argument): whitespace-separated words, with
empty strings discarded. -/
def pySplitWords (l : List Char) : List (List Char) :=
  (splitEachRun isPySpace [] l).filter (fun w => decide (w ≠ []))

/-- `' '.join(ws)`. -/
def joinSpace (ws : List (List Char)) : List Char := (ws.intersperse [' ']).flatten

/-- The sentence-accumulation loop of `chunk_text` (`document_processor.py`
lines 62-90).  Note that the recorded `length` is taken from the chunk text
before `strip()` while `content` is the stripped text, and that the
else-branch prepends a space even to an empty accumulator. -/
def chunkTextLoop (chunk_size overlap : ℕ) :
    List (List Char) → List DPChunk → List Char → List DPChunk
  | [], chunks, current =>
    if pstrip current ≠ [] then
      chunks ++ [⟨pstrip current, current.length, chunks.length⟩]
    else chunks
  | s :: ss, chunks, current =>
    let sent := pstrip s
    if sent = [] then chunkTextLoop chunk_size overlap ss chunks current
    else if chunk_size < current.length + sent.length ∧ current ≠ [] then
      let chunks' := chunks ++ [⟨pstrip current, current.length, chunks.length⟩]
      let words := pySplitWords current
      let overlap_text :=
        if overlap < words.length then joinSpace (pySliceFrom words (-(overlap : ℤ)))
        else current
      chunkTextLoop chunk_size overlap ss chunks' (overlap_text ++ ' ' :: sent)
    else chunkTextLoop chunk_size overlap ss chunks (current ++ ' ' :: sent)

/-- `DocumentProcessor.chunk_text(text, chunk_size, overlap)`
(`document_processor.py` lines 51-93). -/
def chunk_text (t : List Char) (chunk_size overlap : ℕ) : List DPChunk :=
  chunkTextLoop chunk_size overlap (splitTermRuns (clean_text t)) [] []

/-! ### RAG system (`src/rag_system.py`) -/

/-- `RAGSystem.detect_language` (`rag_system.py` lines 36-48): count the
characters lying in the Bengali block (over the whole text), count the
alphabetic characters, and answer `'bengali'` when the ratio of the former
to the latter exceeds `0.3` (exact arithmetic models the float ratio). -/
def detect_language (text : List Char) : String :=
  if (text.filter pyIsAlpha).length = 0 then "english"
  else if (3 : ℚ) / 10 <
      ((text.filter inBengaliBlock).length : ℚ) / ((text.filter pyIsAlpha).length : ℚ) then
    "bengali"
  else "english"

/-- What the spec's language-detection sentence describes: the numerator
counts only characters that are both alphabetic and in the target block
("count alphabetic characters; count the subset belonging to the target
script's Unicode block"). -/
def detectLanguageSpecAlphaSubset (text : List Char) : String :=
  if (text.filter pyIsAlpha).length = 0 then "english"
  else if (3 : ℚ) / 10 <
      ((text.filter (fun c => pyIsAlpha c && inBengaliBlock c)).length : ℚ) /
        ((text.filter pyIsAlpha).length : ℚ) then
    "bengali"
  else "english"

/-- The mean of the retrieved distances
(`sum(doc['distance'] for doc in relevant_docs) / len(relevant_docs)`,
`rag_system.py` line 162). -/
def avg_distance (ds : List ℚ) : ℚ := ds.sum / (ds.length : ℚ)

/-- `max(0.0, 1.0 - avg_distance)` as a function of the mean
(`rag_system.py` line 163). -/
def confidence_of_mean (m : ℚ) : ℚ := max 0 (1 - m)

/-- The confidence reported by `RAGSystem.generate_response` as a function
of the distances of the retrieval results used as context. -/
def confidence (ds : List ℚ) : ℚ := confidence_of_mean (avg_distance ds)

/-- What the spec's confidence sentence describes:
`clamp(1 - meanDistance, 0, 1)`, clamped on both ends. -/
def confidenceSpecClamped (ds : List ℚ) : ℚ := min 1 (max 0 (1 - avg_distance ds))

/-- A conversation turn (`ChatMessage` dataclass, `rag_system.py`
lines 10-14); the timestamp is an abstract instant. -/
structure ChatMessage where
  content : String
  timestamp : ℕ
  type : String
deriving DecidableEq

/-- `RAGSystem.add_to_conversation` (`rag_system.py` lines 50-63): append,
then keep only the last 10 messages when the history exceeds 10. -/
def add_to_conversation (hist : List ChatMessage) (m : ChatMessage) : List ChatMessage :=
  let h := hist ++ [m]
  if 10 < h.length then pySliceFrom h (-10) else h

/-- The read view `self.conversation_history[-4:]` used by
`RAGSystem.get_conversation_context` (`rag_system.py` line 73). -/
def recent_turns (hist : List ChatMessage) : List ChatMessage := pySliceFrom hist (-4)

/-- `RAGSystem.get_conversation_context` (`rag_system.py` lines 65-77):
empty history gives the empty string, otherwise a header plus one
role-prefixed line per turn of the read view, in order. -/
def get_conversation_context (hist : List ChatMessage) : String :=
  if hist = [] then ""
  else
    (recent_turns hist).foldl
      (fun acc m =>
        acc ++ (if m.type = "user" then "User: " else "Assistant: ") ++ m.content ++ "\n")
      "\nRecent conversation:\n"

/-! ### Retriever (`src/retriever.py`) -/

/-- `np.dot` of two vectors of equal length. -/
noncomputable def dotList (u v : List ℝ) : ℝ := (List.zipWith (fun a b => a * b) u v).sum

/-- `sklearn.metrics.pairwise.cosine_similarity` of two vectors:
`u·v / (‖u‖‖v‖)`.  (Lean's `x / 0 = 0` convention coincides with sklearn's
treatment of zero-norm rows, which are left unnormalized so their
similarity is 0.) -/
noncomputable def cosineSim (u v : List ℝ) : ℝ :=
  dotList u v / (Real.sqrt (dotList u u) * Real.sqrt (dotList v v))

/-- The similarity of index `i` in the similarity array (`similarities[i]`). -/
noncomputable def simOf (sims : List ℝ) (i : ℕ) : ℝ := sims.getD i 0

/-- Comparison of two indices by their similarity values; the sort key of
`similarities.argsort()`. -/
def simLe (sims : List ℝ) (i j : ℕ) : Prop := simOf sims i ≤ simOf sims j

noncomputable instance (sims : List ℝ) : DecidableRel (simLe sims) :=
  fun _ _ => Classical.dec _

/-- `similarities.argsort()` (`retriever.py` line 64): the indices
`0..n-1` sorted ascending by similarity.  numpy's sort is modelled as a
stable ascending sort (numpy runs an insertion sort below its introsort
cutoff of 16 elements, and leaves tie order unspecified above it). -/
noncomputable def argsortAsc (sims : List ℝ) : List ℕ :=
  List.insertionSort (simLe sims) (List.range sims.length)

/-- `kb_chunks[i]`. -/
def chunkAt (kb : List (List ℝ × String)) (i : ℕ) : String :=
  (kb.map Prod.snd).getD i ""

/-- The similarity array `cosine_similarity(query_embedding_np, kb_embeddings)[0]`
(`retriever.py` line 59). -/
noncomputable def simsOf (qe : List ℝ) (kb : List (List ℝ × String)) : List ℝ :=
  kb.map (fun r => cosineSim qe r.1)

/-- Lines 39-69 of `retriever.py` (the ranking part of
`retrieve_relevant_chunks`, after the query has been embedded): empty
knowledge base gives `[]`; otherwise compute all cosine similarities, take
`argsort()[-top_k:][::-1]`, and map the resulting indices to chunks.
`top_k` is a Python int, so the slice index `-top_k` may be nonnegative. -/
noncomputable def rank (query_embedding : List ℝ) (kb : List (List ℝ × String))
    (top_k : ℤ) : List String :=
  if kb = [] then []
  else
    let sims := simsOf query_embedding kb
    let top_k_indices := (pySliceFrom (argsortAsc sims) (-top_k)).reverse
    top_k_indices.map (chunkAt kb)

/-- `Retriever.retrieve_relevant_chunks(query, top_k)` (`retriever.py`
lines 18-69), with the embedding provider passed as an oracle.  An empty
query or a failed embedding (empty vector, Python-falsy) short-circuits to
`[]` before the index is consulted. -/
noncomputable def retrieve_relevant_chunks (embed : String → List ℝ)
    (kb : List (List ℝ × String)) (query : String) (top_k : ℤ) : List String :=
  if query = "" then []
  else
    let query_embedding := embed query
    if query_embedding = [] then [] else rank query_embedding kb top_k

/-- The cosine distances `1 - cosine similarity` that the spec's §4.2
ranking contract speaks about. -/
noncomputable def distListOf (qe : List ℝ) (kb : List (List ℝ × String)) : List ℝ :=
  (simsOf qe kb).map (fun s => 1 - s)

/-- Distance of index `i`. -/
noncomputable def distOf (d : List ℝ) (i : ℕ) : ℝ := d.getD i 0

/-- Ascending order by distance with exact ties broken by insertion order
(smaller index first) — the order stated by claim C1. -/
def specLeStable (d : List ℝ) (i j : ℕ) : Prop :=
  distOf d i < distOf d j ∨ (distOf d i = distOf d j ∧ i ≤ j)

/-- Ascending order by distance with exact ties broken by reverse insertion
order (larger index first) — the order the code actually produces. -/
def specLeRev (d : List ℝ) (i j : ℕ) : Prop :=
  distOf d i < distOf d j ∨ (distOf d i = distOf d j ∧ j ≤ i)

noncomputable instance (d : List ℝ) : DecidableRel (specLeStable d) :=
  fun _ _ => Classical.dec _

noncomputable instance (d : List ℝ) : DecidableRel (specLeRev d) :=
  fun _ _ => Classical.dec _

/-- The spec-side ranking of claim C1, literally following its words:
sort the stored records ascending by cosine distance, break exact ties
stably by insertion order, return the first `min(topK, size)` chunks. -/
noncomputable def rankSpecStable (qe : List ℝ) (kb : List (List ℝ × String))
    (top_k : ℤ) : List String :=
  let d := distListOf qe kb
  ((List.insertionSort (specLeStable d) (List.range kb.length)).take
      (min top_k.toNat kb.length)).map (chunkAt kb)

/-- The amended spec-side ranking: identical to `rankSpecStable` except
that exact distance ties are broken by reverse insertion order. -/
noncomputable def rankSpecRev (qe : List ℝ) (kb : List (List ℝ × String))
    (top_k : ℤ) : List String :=
  let d := distListOf qe kb
  ((List.insertionSort (specLeRev d) (List.range kb.length)).take
      (min top_k.toNat kb.length)).map (chunkAt kb)

/-- Ascending similarity with ties broken by insertion order: the order in
which a stable ascending `argsort` actually lists the indices. -/
def lexAscSim (sims : List ℝ) (i j : ℕ) : Prop :=
  simOf sims i < simOf sims j ∨ (simOf sims i = simOf sims j ∧ i ≤ j)

/-! ### Helper lemmas on the Python primitives -/

theorem dropWhile_dropWhile (p : Char → Bool) (l : List Char) :
    (l.dropWhile p).dropWhile p = l.dropWhile p := by
  induction l with
  | nil => rfl
  | cons c t ih =>
    by_cases h : p c <;> simp [List.dropWhile_cons, h, ih]

theorem stripRight_exists_tail (l : List Char) :
    ∃ t, l = stripRight l ++ t := by
  refine ⟨(l.reverse.takeWhile isPySpace).reverse, ?_⟩
  unfold stripRight
  conv_lhs => rw [← l.reverse_reverse]
  rw [← List.reverse_append, List.takeWhile_append_dropWhile]

theorem stripLeft_stripRight (l : List Char) (h : stripLeft l = l) :
    stripLeft (stripRight l) = stripRight l := by
  obtain ⟨t, ht⟩ := stripRight_exists_tail l
  cases hsr : stripRight l with
  | nil => rfl
  | cons c z =>
    have hc : ¬ isPySpace c = true := by
      intro hc
      have hl : l = c :: (z ++ t) := by rw [ht, hsr]; simp
      rw [hl] at h
      unfold stripLeft at h
      rw [List.dropWhile_cons, if_pos hc] at h
      have hlen := congrArg List.length h
      rw [List.length_cons] at hlen
      have hle := (List.dropWhile_sublist (l := z ++ t) isPySpace).length_le
      omega
    unfold stripLeft
    rw [List.dropWhile_cons, if_neg hc]

theorem stripRight_idem (l : List Char) : stripRight (stripRight l) = stripRight l := by
  unfold stripRight
  rw [List.reverse_reverse, dropWhile_dropWhile]

theorem pstrip_idem (l : List Char) : pstrip (pstrip l) = pstrip l := by
  unfold pstrip
  rw [stripLeft_stripRight (stripLeft l) (dropWhile_dropWhile _ _), stripRight_idem]

theorem pstrip_eq_nil_iff (l : List Char) :
    pstrip l = [] ↔ ∀ c ∈ l, isPySpace c := by
  unfold pstrip stripRight stripLeft
  rw [List.reverse_eq_nil_iff, List.dropWhile_eq_nil_iff]
  constructor
  · intro h c hc
    have hsplit : l.takeWhile isPySpace ++ l.dropWhile isPySpace = l :=
      List.takeWhile_append_dropWhile ..
    rw [← hsplit] at hc
    rcases List.mem_append.1 hc with h1 | h1
    · exact List.mem_takeWhile_imp h1
    · exact h c (List.mem_reverse.2 h1)
  · intro h c hc
    exact h c ((l.dropWhile_sublist isPySpace).subset (List.mem_reverse.1 hc))

theorem nonWs_eq_nil_iff (l : List Char) :
    nonWs l = [] ↔ ∀ c ∈ l, isPySpace c := by
  unfold nonWs
  rw [List.filter_eq_nil_iff]
  simp

theorem nonWs_append (a b : List Char) : nonWs (a ++ b) = nonWs a ++ nonWs b :=
  List.filter_append ..

theorem nonWs_dropWhile (l : List Char) :
    nonWs (l.dropWhile isPySpace) = nonWs l := by
  induction l with
  | nil => rfl
  | cons c t ih =>
    by_cases h : isPySpace c
    · simp [List.dropWhile_cons, h, nonWs, List.filter_cons]
      simpa [nonWs] using ih
    · simp [List.dropWhile_cons, h, nonWs, List.filter_cons]

theorem nonWs_reverse (l : List Char) : nonWs l.reverse = (nonWs l).reverse := by
  unfold nonWs
  exact List.filter_reverse ..

theorem nonWs_pstrip (l : List Char) : nonWs (pstrip l) = nonWs l := by
  unfold pstrip stripRight stripLeft
  rw [nonWs_reverse, nonWs_dropWhile, nonWs_reverse, List.reverse_reverse, nonWs_dropWhile]

theorem pstrip_length_le (l : List Char) : (pstrip l).length ≤ l.length := by
  unfold pstrip stripRight stripLeft
  calc ((l.dropWhile isPySpace).reverse.dropWhile isPySpace).reverse.length
      ≤ (l.dropWhile isPySpace).reverse.length := by
        simpa using ((l.dropWhile isPySpace).reverse.dropWhile_sublist isPySpace).length_le
    _ ≤ l.length := by simpa using (l.dropWhile_sublist isPySpace).length_le

theorem pySliceFrom_neg (l : List α) (s : ℤ) (hs : s < 0) :
    pySliceFrom l s = l.drop (l.length - (-s).toNat) := by
  unfold pySliceFrom
  rw [if_pos hs]
  congr 1
  omega

theorem pySliceFrom_nonneg (l : List α) (s : ℤ) (hs : 0 ≤ s) :
    pySliceFrom l s = l.drop s.toNat := by
  unfold pySliceFrom
  rw [if_neg (by omega)]
  rcases le_or_lt (s.toNat) l.length with h | h
  · rw [min_eq_left h]
  · rw [min_eq_right h.le, List.drop_length, List.drop_of_length_le h.le]

/-! ### C10: empty query short-circuits the retriever -/

/-- Claim C10 (confirmed): for every embedding oracle, knowledge base and
`top_k`, an empty-string query makes `retrieve_relevant_chunks` return `[]`
immediately; the result depends neither on the oracle nor on the index. -/
theorem retrieve_empty_query_returns_empty (embed : String → List ℝ)
    (kb : List (List ℝ × String)) (top_k : ℤ) :
    retrieve_relevant_chunks embed kb "" top_k = [] := by
  simp [retrieve_relevant_chunks]

/-! ### C9: conversation memory bound and recent-context view -/

theorem foldl_add_to_conversation (msgs : List ChatMessage) :
    msgs.foldl add_to_conversation [] = msgs.drop (msgs.length - 10) := by
  induction msgs using List.reverseRecOn with
  | nil => simp
  | append_singleton msgs m ih =>
    rw [List.foldl_append, List.foldl_cons, List.foldl_nil, ih]
    unfold add_to_conversation
    rcases le_or_lt msgs.length 9 with hL | hL
    · rw [if_neg (by simp; omega)]
      have h0 : msgs.length - 10 = 0 := by omega
      have h0' : (msgs ++ [m]).length - 10 = 0 := by simp; omega
      rw [h0, h0', List.drop_zero, List.drop_zero]
    · rw [if_pos (by simp; omega)]
      rw [pySliceFrom_neg _ _ (by norm_num)]
      have hlen : (msgs.drop (msgs.length - 10) ++ [m]).length = 11 := by simp; omega
      rw [hlen]
      norm_num
      rw [List.drop_append_of_le_length (by simp; omega),
        List.drop_drop]
      rw [List.drop_append_of_le_length (by simp)]
      congr 2
      omega

/-- Claim C9 (confirmed): starting from an empty history, after any
sequence of `add_to_conversation` pushes the history has at most 10 turns,
it is exactly the suffix of the pushed turns (so no turn is ever
reordered), and the `[-4:]` read view used by `get_conversation_context`
is exactly the last 4 pushed turns in chronological order (fewer when the
history is shorter). -/
theorem conversation_memory_bounded_and_recent (msgs : List ChatMessage) :
    (msgs.foldl add_to_conversation []).length ≤ 10
    ∧ msgs.foldl add_to_conversation [] = msgs.drop (msgs.length - 10)
    ∧ recent_turns (msgs.foldl add_to_conversation []) = msgs.drop (msgs.length - 4) := by
  have h := foldl_add_to_conversation msgs
  refine ⟨?_, h, ?_⟩
  · rw [h]; simp; omega
  · rw [h]
    unfold recent_turns
    rw [pySliceFrom_neg _ _ (by norm_num), List.drop_drop]
    congr 1
    simp
    omega

/-! ### C2: confidence scoring -/

/-- Counterexample to claim C2 as stated: `generate_response` computes
`max(0.0, 1.0 - avg_distance)` with no upper clamp, so a (contractually
unconstrained) negative distance yields a confidence of 2, outside
`[0, 1]` and different from the two-ended clamp the claim demands. -/
theorem confidence_not_upper_clamped :
    confidence [(-1 : ℚ)] = 2 ∧ confidenceSpecClamped [(-1 : ℚ)] = 1
    ∧ ¬ confidence [(-1 : ℚ)] ≤ 1 := by
  norm_num [confidence, confidenceSpecClamped, confidence_of_mean, avg_distance]

/-- Claim C2 (amended): the reported confidence is `max(0, 1 - mean)`,
clamped below only.  Whenever every distance is nonnegative (as the data
model guarantees) this coincides with the two-sided clamp and lies in
`[0, 1]`; the confidence is non-increasing in the mean distance, equals
`0.9` at mean distance `0.1` and `0.0` at mean distance `1.5`. -/
theorem confidence_lower_clamp_properties :
    (∀ ds : List ℚ, ds ≠ [] → (∀ d ∈ ds, 0 ≤ d) →
      confidence ds = confidenceSpecClamped ds
      ∧ 0 ≤ confidence ds ∧ confidence ds ≤ 1)
    ∧ (∀ m₁ m₂ : ℚ, m₁ ≤ m₂ → confidence_of_mean m₂ ≤ confidence_of_mean m₁)
    ∧ confidence_of_mean (1 / 10) = 9 / 10 ∧ confidence_of_mean (3 / 2) = 0 := by
  refine ⟨?_, ?_, by norm_num [confidence_of_mean], by norm_num [confidence_of_mean]⟩
  · intro ds hne hpos
    have hlen : 0 < (ds.length : ℚ) := by
      have : 0 < ds.length := List.length_pos.2 hne
      exact_mod_cast this
    have havg : 0 ≤ avg_distance ds :=
      div_nonneg (List.sum_nonneg hpos) hlen.le
    have hle : confidence ds ≤ 1 := by
      unfold confidence confidence_of_mean
      exact max_le (by norm_num) (by linarith)
    refine ⟨?_, le_max_left 0 _, hle⟩
    unfold confidence confidence_of_mean confidenceSpecClamped
    rw [min_eq_right]
    exact max_le (by norm_num) (by linarith)
  · intro m₁ m₂ hm
    unfold confidence_of_mean
    exact max_le_max le_rfl (by linarith)

theorem confidence_lower_clamp_properties_witness :
    confidence [(1 : ℚ) / 10] = confidenceSpecClamped [(1 : ℚ) / 10]
    ∧ 0 ≤ confidence [(1 : ℚ) / 10] ∧ confidence [(1 : ℚ) / 10] ≤ 1 :=
  confidence_lower_clamp_properties.1 [(1 : ℚ) / 10] (by simp)
    (by intro d hd; rw [List.mem_singleton] at hd; rw [hd]; norm_num)

/-! ### C7: language detection -/

/-- Counterexample to claim C7 as stated: the numerator of the detection
ratio counts every character of the Bengali block, not just alphabetic
ones.  In `"ab৩"` (two Latin letters and the Bengali digit `৩`) no
alphabetic character is Bengali, so the claim demands `english`; the code
computes ratio `1/2 > 0.3` and answers `bengali`. -/
theorem detect_language_block_vs_alpha :
    detect_language ['a', 'b', '৩'] = "bengali"
    ∧ detectLanguageSpecAlphaSubset ['a', 'b', '৩'] = "english" := by
  have hb : ((['a', 'b', '৩'] : List Char).filter inBengaliBlock).length = 1 := by decide
  have ht : ((['a', 'b', '৩'] : List Char).filter pyIsAlpha).length = 2 := by decide
  have hba : ((['a', 'b', '৩'] : List Char).filter
      (fun c => pyIsAlpha c && inBengaliBlock c)).length = 0 := by decide
  constructor
  · unfold detect_language
    rw [hb, ht]
    norm_num
  · unfold detectLanguageSpecAlphaSubset
    rw [hba, ht]
    norm_num

/-- Claim C7 (amended): a text with zero alphabetic characters is
classified as the default language (`english`); otherwise the text is
classified `bengali` exactly when the count of Bengali-block characters
(alphabetic or not, over the whole text) exceeds `0.3` times the count of
alphabetic characters. -/
theorem detect_language_block_count_characterization (text : List Char) :
    ((text.filter pyIsAlpha).length = 0 → detect_language text = "english")
    ∧ (detect_language text = "bengali" ↔
        0 < (text.filter pyIsAlpha).length ∧
        3 * (text.filter pyIsAlpha).length < 10 * (text.filter inBengaliBlock).length) := by
  unfold detect_language
  constructor
  · intro h
    rw [if_pos h]
  · by_cases ht : (text.filter pyIsAlpha).length = 0
    · simp [ht]
    · have ht' : 0 < (text.filter pyIsAlpha).length := Nat.pos_of_ne_zero ht
      rw [if_neg ht]
      have hiff : (3 : ℚ) / 10 <
          ((text.filter inBengaliBlock).length : ℚ) / ((text.filter pyIsAlpha).length : ℚ)
          ↔ 3 * (text.filter pyIsAlpha).length <
            10 * (text.filter inBengaliBlock).length := by
        rw [div_lt_div_iff₀ (by norm_num) (by exact_mod_cast ht')]
        constructor
        · intro h
          have h' : (3 * (text.filter pyIsAlpha).length : ℚ) <
              (10 * (text.filter inBengaliBlock).length : ℚ) := by linarith
          exact_mod_cast h'
        · intro h
          have h' : (3 * (text.filter pyIsAlpha).length : ℚ) <
              (10 * (text.filter inBengaliBlock).length : ℚ) := by exact_mod_cast h
          linarith
      by_cases hc : (3 : ℚ) / 10 <
          ((text.filter inBengaliBlock).length : ℚ) / ((text.filter pyIsAlpha).length : ℚ)
      · rw [if_pos hc]
        simp only [true_iff, hiff.1 hc, ht', and_true]
      · rw [if_neg hc]
        constructor
        · intro h
          exact absurd h (by decide)
        · intro h
          exact absurd (hiff.2 h.2) hc

theorem detect_language_block_count_characterization_witness :
    detect_language ['ক', 'খ'] = "bengali" :=
  (detect_language_block_count_characterization ['ক', 'খ']).2.mpr (by decide)

/-! ### C4: refined chunks never exceed the chunk size -/

theorem refineChunk_length_le (cs ov : ℕ) (hov : ov < cs) :
    ∀ fuel chunk, chunk.length ≤ fuel →
      ∀ c ∈ refineChunk cs ov fuel chunk, c.length ≤ cs := by
  intro fuel
  induction fuel with
  | zero =>
    intro chunk hle c hc
    simp only [refineChunk, List.mem_singleton] at hc
    subst hc
    omega
  | succ fuel ih =>
    intro chunk hle c hc
    simp only [refineChunk] at hc
    by_cases h : cs < chunk.length
    · rw [if_pos h] at hc
      rcases List.mem_cons.1 hc with rfl | hc'
      · simp [List.length_take]
      · refine ih _ ?_ c hc'
        rw [pySliceFrom_nonneg _ _ (by omega), List.length_drop]
        have h2 : ((cs : ℤ) - (ov : ℤ)).toNat = cs - ov := by omega
        rw [h2]
        omega
    · rw [if_neg h] at hc
      by_cases hne : chunk ≠ []
      · rw [if_pos hne, List.mem_singleton] at hc
        subst hc
        omega
      · rw [if_neg hne] at hc
        simp at hc

/-- Claim C4 (confirmed): for every input text and every parameter pair
with `chunk_overlap < chunk_size`, every chunk returned by
`recursive_character_text_splitter` has length at most `chunk_size` (the
refinement pass slices any over-long merged chunk into `chunk_size`-sized
windows). -/
theorem segment_chunk_length_le_chunkSize (text : List Char) (cs ov : ℕ) (hov : ov < cs) :
    ∀ c ∈ recursive_character_text_splitter text cs ov, c.length ≤ cs := by
  intro c hc
  simp only [recursive_character_text_splitter] at hc
  by_cases h : text = []
  · rw [if_pos h] at hc; simp at hc
  · rw [if_neg h] at hc
    rw [List.mem_filter] at hc
    obtain ⟨hmem, -⟩ := hc
    rw [List.mem_flatMap] at hmem
    obtain ⟨m, -, hcm⟩ := hmem
    exact refineChunk_length_le cs ov hov _ m (by omega) c hcm

theorem segment_chunk_length_le_chunkSize_witness :
    ['a', ' ', 'b'] ∈ recursive_character_text_splitter ['a', 'b', 'c', 'd'] 3 1
    ∧ (['a', ' ', 'b'] : List Char).length ≤ 3 :=
  ⟨by decide,
    segment_chunk_length_le_chunkSize ['a', 'b', 'c', 'd'] 3 1 (by decide) _ (by decide)⟩

/-! ### C3: no overlap validation exists -/

/-- Counterexample to claim C3 as stated: `recursive_character_text_splitter`
contains no parameter validation at all (there is no `raise` in
`chunker.py`), so a call with `chunk_overlap = 7 ≥ 5 = chunk_size` does not
fail with a ConfigError before producing chunks — it returns chunks.  The
second input even enters the refinement loop (its merged chunk `"abc de"`
has 6 > 5 characters) and still returns chunks: the negative Python slice
`chunk[5-7:]` keeps the last two characters, which then fit. -/
theorem segment_no_config_error :
    5 ≤ 7 ∧ recursive_character_text_splitter ['a', 'b'] 5 7 = [['a', 'b']]
    ∧ recursive_character_text_splitter ['a', 'b', 'c', ' ', 'd', 'e'] 5 7 =
      [['a', 'b', 'c', ' ', 'd'], ['d', 'e']] := by
  exact ⟨by decide, by decide, by decide⟩

/-- Claim C3 (amended): `segment` performs no validation of
`chunkOverlap ≥ chunkSize` and cannot fail with a ConfigError: whenever the
normalized text is nonempty and fits within `chunkSize`, the call returns
that single normalized chunk even though `chunkOverlap ≥ chunkSize`. -/
theorem segment_accepts_overlap_ge_size (text : List Char) (cs ov : ℕ)
    (_hov : cs ≤ ov) (hne : normalizeText text ≠ [])
    (hlen : (normalizeText text).length ≤ cs) :
    recursive_character_text_splitter text cs ov = [normalizeText text] := by
  have htext : text ≠ [] := by
    intro h
    apply hne
    rw [h]
    rfl
  have hps : pstrip (normalizeText text) = normalizeText text := pstrip_idem _
  simp only [recursive_character_text_splitter]
  rw [if_neg htext]
  have hsplit : splitRecursively cs theSeps (normalizeText text) = [normalizeText text] := by
    simp only [theSeps, splitRecursively]
    rw [if_pos hlen]
  rw [hsplit]
  have hmerge : mergeParts cs ov [normalizeText text] [] [] = [normalizeText text] := by
    have hcond : ¬ cs < List.length ([] : List Char) + (normalizeText text).length +
        (if 0 < List.length ([] : List (List Char)) ∧ 0 < ov then 1 else 0) := by
      simp
      omega
    simp only [mergeParts]
    rw [if_neg hcond, if_neg (show ¬(([] : List Char) ≠ []) from fun h => h rfl)]
    simp only [List.nil_append, hps]
    rw [if_pos hne]
  rw [hmerge]
  have hrefine : refineChunk cs ov ((normalizeText text).length + 1) (normalizeText text) =
      [normalizeText text] := by
    simp only [refineChunk]
    rw [if_neg (by omega), if_pos hne]
  simp only [List.flatMap_cons, List.flatMap_nil, hrefine, List.append_nil]
  rw [List.filter_cons]
  rw [hps]
  simp [hne]

theorem segment_accepts_overlap_ge_size_witness :
    recursive_character_text_splitter ['a', 'b'] 5 7 = [normalizeText ['a', 'b']] :=
  segment_accepts_overlap_ge_size ['a', 'b'] 5 7 (by decide) (by decide) (by decide)

/-! ### C5: round-trip of segmentation, modulo whitespace -/

theorem nonWs_cons (c : Char) (l : List Char) :
    nonWs (c :: l) = (if isPySpace c then [] else [c]) ++ nonWs l := by
  by_cases h : isPySpace c <;> simp [nonWs, List.filter_cons, h]

theorem nonWs_eq_nil_of_pstrip (l : List Char) (h : pstrip l = []) : nonWs l = [] :=
  (nonWs_eq_nil_iff l).2 ((pstrip_eq_nil_iff l).1 h)

theorem nonWs_collapseWsAux (l : List Char) :
    ∀ b, nonWs (collapseWsAux b l) = nonWs l := by
  induction l with
  | nil => intro b; rfl
  | cons c rest ih =>
    intro b
    simp only [collapseWsAux]
    by_cases h : isPySpace c
    · rw [if_pos h]
      by_cases hb : b
      · rw [if_pos hb, ih, nonWs_cons, if_pos h, List.nil_append]
      · rw [if_neg hb, nonWs_cons, if_pos (show isPySpace ' ' from rfl), List.nil_append,
          ih, nonWs_cons, if_pos h, List.nil_append]
    · rw [if_neg h, nonWs_cons, if_neg h, nonWs_cons, if_neg h, ih]

theorem nonWs_normalizeText (l : List Char) : nonWs (normalizeText l) = nonWs l := by
  unfold normalizeText collapseWs
  rw [nonWs_pstrip, nonWs_collapseWsAux]

theorem splitSentAux_flatten (l : List Char) :
    ∀ skip acc, nonWs (List.flatten (splitSentAux skip acc l)) =
      nonWs acc.reverse ++ nonWs l := by
  induction l with
  | nil => intro skip acc; simp [splitSentAux, nonWs]
  | cons c rest ih =>
    intro skip acc
    simp only [splitSentAux]
    by_cases h1 : (skip && isPySpace c) = true
    · have hc : isPySpace c = true := by
        rw [Bool.and_eq_true] at h1
        exact h1.2
      rw [if_pos h1, ih, nonWs_cons, if_pos hc, List.nil_append]
    · rw [if_neg h1]
      by_cases h2 : (isPySpace c && isEnder (acc.headD ' ')) = true
      · have hc : isPySpace c = true := by
          rw [Bool.and_eq_true] at h2
          exact h2.1
        rw [if_pos h2, List.flatten_cons, nonWs_append, ih, nonWs_cons, if_pos hc]
        simp [nonWs]
      · rw [if_neg h2, ih, List.reverse_cons, nonWs_append, nonWs_cons, nonWs_cons]
        by_cases hc : isPySpace c <;> simp [hc, nonWs, List.append_assoc]

theorem splitParaAux_flatten (l : List Char) :
    ∀ skip acc, nonWs (List.flatten (splitParaAux skip acc l)) =
      nonWs acc.reverse ++ nonWs l := by
  induction l with
  | nil => intro skip acc; simp [splitParaAux, nonWs]
  | cons c rest ih =>
    intro skip acc
    have hnl : isPySpace '\n' = true := rfl
    simp only [splitParaAux]
    by_cases h1 : (skip && c == '\n') = true
    · have hc : c = '\n' := by
        rw [Bool.and_eq_true] at h1
        exact eq_of_beq h1.2
      rw [if_pos h1, ih, hc, nonWs_cons, if_pos hnl, List.nil_append]
    · rw [if_neg h1]
      by_cases h2 : (c == '\n' && rest.headD ' ' == '\n') = true
      · have hc : c = '\n' := by
          rw [Bool.and_eq_true] at h2
          exact eq_of_beq h2.1
        rw [if_pos h2, List.flatten_cons, nonWs_append, ih, hc, nonWs_cons, if_pos hnl]
        simp [nonWs]
      · rw [if_neg h2, ih, List.reverse_cons, nonWs_append, nonWs_cons, nonWs_cons]
        by_cases hc : isPySpace c <;> simp [hc, nonWs, List.append_assoc]

theorem splitEachRun_flatten (p : Char → Bool) (hp : ∀ c, p c → isPySpace c)
    (l : List Char) :
    ∀ acc, nonWs (List.flatten (splitEachRun p acc l)) = nonWs acc.reverse ++ nonWs l := by
  induction l with
  | nil => intro acc; simp [splitEachRun, nonWs]
  | cons c rest ih =>
    intro acc
    simp only [splitEachRun]
    by_cases h : p c
    · rw [if_pos h, List.flatten_cons, nonWs_append, ih, nonWs_cons, if_pos (hp c h)]
      simp [nonWs]
    · rw [if_neg h, ih, List.reverse_cons, nonWs_append, nonWs_cons, nonWs_cons]
      by_cases hc : isPySpace c <;> simp [hc, nonWs, List.append_assoc]

theorem flatten_map_singleton (l : List Char) :
    List.flatten (l.map (fun c => [c])) = l := by
  induction l with
  | nil => rfl
  | cons c rest ih => simp [ih]

theorem sepSplit_flatten (sep : SepKind) (l : List Char) :
    nonWs (List.flatten (sepSplit sep l)) = nonWs l := by
  cases sep with
  | sentence => simpa [nonWs] using splitSentAux_flatten l false []
  | para => simpa [nonWs] using splitParaAux_flatten l false []
  | newline =>
    have := splitEachRun_flatten (· == '\n') (fun c hc => by rw [eq_of_beq hc]; rfl) l []
    simpa [nonWs] using this
  | ws => simpa [nonWs] using splitEachRun_flatten isPySpace (fun _ h => h) l []
  | chars => simp [sepSplit, flatten_map_singleton]

theorem sepAttach_nonWs (sep : SepKind) : nonWs (sepAttach sep) = [] := by
  cases sep <;> rfl

theorem splitRecParts_flatten (cs : ℕ) (f : List Char → List (List Char))
    (att : List Char) (hf : ∀ p, nonWs (List.flatten (f p)) = nonWs p)
    (hatt : nonWs att = []) :
    ∀ parts, nonWs (List.flatten (splitRecParts cs f att parts)) =
      nonWs (List.flatten parts) := by
  intro parts
  induction parts with
  | nil => rfl
  | cons p ps ih =>
    cases ps with
    | nil =>
      simp only [splitRecParts, List.flatten_cons, List.flatten_nil, List.append_nil]
      by_cases h1 : pstrip p = []
      · rw [if_pos h1, nonWs_eq_nil_of_pstrip p h1]
        rfl
      · rw [if_neg h1]
        by_cases h2 : cs < p.length
        · rw [if_pos h2, hf]
        · rw [if_neg h2]
          simp [nonWs]
    | cons q ps' =>
      simp only [splitRecParts]
      rw [List.flatten_append, nonWs_append, ih]
      simp only [List.flatten_cons, nonWs_append]
      congr 1
      by_cases h1 : pstrip p = []
      · rw [if_pos h1, nonWs_eq_nil_of_pstrip p h1]
        rfl
      · rw [if_neg h1]
        by_cases h2 : cs < (p ++ att).length
        · rw [if_pos h2, hf, nonWs_append, hatt, List.append_nil]
        · rw [if_neg h2]
          simp [nonWs_append, hatt]

theorem splitRecursively_flatten (cs : ℕ) :
    ∀ (seps : List SepKind) (seg : List Char),
      nonWs (List.flatten (splitRecursively cs seps seg)) = nonWs seg := by
  intro seps
  induction seps with
  | nil => intro seg; simp [splitRecursively, nonWs]
  | cons sep rest ih =>
    intro seg
    simp only [splitRecursively]
    by_cases h : seg.length ≤ cs
    · rw [if_pos h]
      simp [nonWs]
    · rw [if_neg h,
        splitRecParts_flatten cs _ _ (fun p => ih p) (sepAttach_nonWs sep),
        sepSplit_flatten]

theorem nonWs_nil : nonWs [] = [] := rfl

theorem nonWs_single_space : nonWs [' '] = [] := rfl

theorem mergeParts_flatten (cs : ℕ) :
    ∀ (ps finals : List (List Char)) (current : List Char),
      nonWs (List.flatten (mergeParts cs 0 ps finals current)) =
      nonWs (List.flatten finals) ++ nonWs current ++ nonWs (List.flatten ps) := by
  intro ps
  induction ps with
  | nil =>
    intro finals current
    simp only [mergeParts, List.flatten_nil]
    by_cases h : pstrip current ≠ []
    · rw [if_pos h, List.flatten_append]
      simp [nonWs_append, nonWs_pstrip, nonWs_nil]
    · rw [if_neg h]
      push_neg at h
      rw [nonWs_eq_nil_of_pstrip _ h]
      simp [nonWs_nil]
  | cons p ps ih =>
    intro finals current
    simp only [mergeParts]
    have hfin : nonWs (List.flatten
        (if pstrip current ≠ [] then finals ++ [pstrip current] else finals)) =
        nonWs (List.flatten finals) ++ nonWs current := by
      by_cases h : pstrip current ≠ []
      · rw [if_pos h, List.flatten_append]
        simp [nonWs_append, nonWs_pstrip, nonWs_nil]
      · rw [if_neg h]
        push_neg at h
        rw [nonWs_eq_nil_of_pstrip _ h, List.append_nil]
    by_cases hover : cs < current.length + p.length +
        (if 0 < finals.length ∧ 0 < 0 then 1 else 0)
    · rw [if_pos hover, ih, hfin]
      have hcur : nonWs (if 0 < 0 ∧ 0 < current.length then
          pstrip (pySliceFrom current (-((0:ℕ) : ℤ))) ++ ' ' :: pstrip p
          else pstrip p) = nonWs p := by
        rw [if_neg (by simp), nonWs_pstrip]
      rw [hcur]
      simp [List.flatten_cons, nonWs_append, List.append_assoc]
    · rw [if_neg hover, ih]
      have hcur : nonWs ((if current ≠ [] then current ++ [' '] else current) ++ pstrip p) =
          nonWs current ++ nonWs p := by
        by_cases h : current ≠ []
        · rw [if_pos h, nonWs_append, nonWs_append, nonWs_pstrip]
          simp [nonWs_single_space]
        · rw [if_neg h, nonWs_append, nonWs_pstrip]
      rw [hcur]
      simp [List.flatten_cons, nonWs_append, List.append_assoc]

theorem refineChunk_flatten (cs : ℕ) (hcs : 1 ≤ cs) :
    ∀ fuel chunk, chunk.length ≤ fuel →
      List.flatten (refineChunk cs 0 fuel chunk) = chunk := by
  intro fuel
  induction fuel with
  | zero =>
    intro chunk hle
    have h0 : chunk = [] := List.length_eq_zero.1 (by omega)
    subst h0
    rfl
  | succ fuel ih =>
    intro chunk hle
    simp only [refineChunk]
    by_cases h : cs < chunk.length
    · have hX : (pySliceFrom chunk ((cs : ℤ) - ((0:ℕ) : ℤ))).length ≤ fuel := by
        rw [pySliceFrom_nonneg _ _ (by omega), List.length_drop]
        omega
      rw [if_pos h, List.flatten_cons, ih _ hX, pySliceFrom_nonneg _ _ (by omega)]
      have htn : (((cs : ℤ)) - ((0:ℕ) : ℤ)).toNat = cs := by omega
      rw [htn, List.take_append_drop]
    · rw [if_neg h]
      by_cases hne : chunk ≠ []
      · rw [if_pos hne]
        simp
      · rw [if_neg hne]
        push_neg at hne
        rw [hne]
        rfl

theorem filter_strip_flatten (l : List (List Char)) :
    nonWs (List.flatten (l.filter (fun c => decide (pstrip c ≠ [])))) =
    nonWs (List.flatten l) := by
  induction l with
  | nil => rfl
  | cons c rest ih =>
    rw [List.filter_cons]
    by_cases h : pstrip c ≠ []
    · rw [if_pos (by simpa using h)]
      simp only [List.flatten_cons, nonWs_append, ih]
    · rw [if_neg (by simpa using h)]
      push_neg at h
      simp only [List.flatten_cons, nonWs_append, ih, nonWs_eq_nil_of_pstrip _ h,
        List.nil_append]

theorem flatten_flatMap_refine (cs : ℕ) (hcs : 1 ≤ cs) (finals : List (List Char)) :
    List.flatten (finals.flatMap (fun c => refineChunk cs 0 (c.length + 1) c)) =
    List.flatten finals := by
  induction finals with
  | nil => rfl
  | cons c rest ih =>
    rw [List.flatMap_cons, List.flatten_append, ih, List.flatten_cons,
      refineChunk_flatten cs hcs _ c (by omega)]

/-- Counterexample to claim C5 as stated: on `"ab cd"` with
`chunk_size = 2`, `chunk_overlap = 0`, the splitter returns
`["a ", "b", "cd"]`, whose concatenation `"a bcd"` is not the normalized
text `"ab cd"` — the merge pass strips the pieces and re-joins them with
its own inserted spaces, so whitespace is not reconstructed. -/
theorem segment_roundtrip_fails :
    recursive_character_text_splitter ['a', 'b', ' ', 'c', 'd'] 2 0 =
      [['a', ' '], ['b'], ['c', 'd']]
    ∧ normalizeText ['a', 'b', ' ', 'c', 'd'] = ['a', 'b', ' ', 'c', 'd']
    ∧ List.flatten (recursive_character_text_splitter ['a', 'b', ' ', 'c', 'd'] 2 0) ≠
      normalizeText ['a', 'b', ' ', 'c', 'd'] :=
  ⟨by decide, by decide, by decide⟩

/-- Claim C5 (amended): with `chunk_overlap = 0` (and a positive
`chunk_size`), the concatenation of the returned chunks reconstructs the
whitespace-normalized source text only up to whitespace: after removing
all whitespace characters, concatenation and normalized text agree.  Exact
reconstruction fails (see the counterexample) because the merge pass strips
each piece and re-joins pieces with inserted single spaces. -/
theorem segment_roundtrip_modulo_whitespace (text : List Char) (cs : ℕ) (hcs : 1 ≤ cs) :
    nonWs (List.flatten (recursive_character_text_splitter text cs 0)) =
    nonWs (normalizeText text) := by
  by_cases h : text = []
  · rw [h]
    rfl
  · simp only [recursive_character_text_splitter]
    rw [if_neg h, filter_strip_flatten, flatten_flatMap_refine cs hcs,
      mergeParts_flatten cs]
    simp only [List.flatten_nil]
    rw [splitRecursively_flatten]
    simp [nonWs]

theorem segment_roundtrip_modulo_whitespace_witness :
    nonWs (List.flatten (recursive_character_text_splitter ['a', 'b', ' ', 'c', 'd'] 2 0)) =
    nonWs (normalizeText ['a', 'b', ' ', 'c', 'd']) :=
  segment_roundtrip_modulo_whitespace ['a', 'b', ' ', 'c', 'd'] 2 (by decide)

/-! ### C8: document-processor chunk invariants -/

theorem pstrip_append_space_ne_nil (x sent : List Char) (h : pstrip sent ≠ []) :
    pstrip (x ++ ' ' :: sent) ≠ [] := by
  intro hc
  apply h
  rw [pstrip_eq_nil_iff] at hc
  exact (pstrip_eq_nil_iff sent).2
    (fun c hcm => hc c (List.mem_append.2 (Or.inr (List.mem_cons.2 (Or.inr hcm)))))

theorem chunkTextLoop_invariants (chunk_size overlap : ℕ) :
    ∀ (ss : List (List Char)) (chunks : List DPChunk) (current : List Char),
      chunks.map DPChunk.id = List.range chunks.length →
      (∀ r ∈ chunks, pstrip r.content ≠ [] ∧ r.content.length ≤ r.length) →
      (current = [] ∨ pstrip current ≠ []) →
      (chunkTextLoop chunk_size overlap ss chunks current).map DPChunk.id =
        List.range (chunkTextLoop chunk_size overlap ss chunks current).length
      ∧ ∀ r ∈ chunkTextLoop chunk_size overlap ss chunks current,
          pstrip r.content ≠ [] ∧ r.content.length ≤ r.length := by
  intro ss
  induction ss with
  | nil =>
    intro chunks current hids hrec _hcur
    simp only [chunkTextLoop]
    by_cases h : pstrip current ≠ []
    · rw [if_pos h]
      constructor
      · rw [List.map_append, hids, List.length_append, List.map_cons, List.map_nil,
          List.length_cons, List.length_nil, List.range_succ]
      · intro r hr
        rcases List.mem_append.1 hr with hr | hr
        · exact hrec r hr
        · rw [List.mem_singleton] at hr
          subst hr
          exact ⟨by rw [pstrip_idem]; exact h, pstrip_length_le current⟩
    · rw [if_neg h]
      exact ⟨hids, hrec⟩
  | cons s ss ih =>
    intro chunks current hids hrec hcur
    simp only [chunkTextLoop]
    by_cases hsent : pstrip s = []
    · rw [if_pos hsent]
      exact ih chunks current hids hrec hcur
    · rw [if_neg hsent]
      by_cases hover : chunk_size < current.length + (pstrip s).length ∧ current ≠ []
      · rw [if_pos hover]
        have hcur' : pstrip current ≠ [] := by
          rcases hcur with h | h
          · exact absurd h hover.2
          · exact h
        refine ih _ _ ?_ ?_ (Or.inr (pstrip_append_space_ne_nil _ _ (by
            rw [pstrip_idem]; exact hsent)))
        · rw [List.map_append, hids, List.length_append, List.map_cons, List.map_nil,
            List.length_cons, List.length_nil, List.range_succ]
        · intro r hr
          rcases List.mem_append.1 hr with hr | hr
          · exact hrec r hr
          · rw [List.mem_singleton] at hr
            subst hr
            exact ⟨by rw [pstrip_idem]; exact hcur', pstrip_length_le current⟩
      · rw [if_neg hover]
        exact ih _ _ hids hrec
          (Or.inr (pstrip_append_space_ne_nil _ _ (by rw [pstrip_idem]; exact hsent)))

/-- Counterexample to claim C8 as stated: on `"Hello. World."` (default
parameters) `chunk_text` records `length = 12` — the length of the
accumulated text `" Hello World"` before `strip()` — while the stored
`content` is the stripped `"Hello World"` of length 11, so
`length = length(content)` fails. -/
theorem chunk_text_length_field_mismatch :
    chunk_text "Hello. World.".data 500 50 = [⟨"Hello World".data, 12, 0⟩]
    ∧ ("Hello World".data).length = 11 :=
  ⟨by decide, by decide⟩

/-- Claim C8 (amended): every chunk produced by `chunk_text` has ids that
are strictly increasing in source order (`id` equals the chunk's position,
i.e. the id list is `range n`), content that is nonempty after trimming,
and a recorded `length` field that is at least — but not always equal
to — the length of its content (the surplus is the whitespace `strip()`
removed from the accumulated text). -/
theorem chunk_text_invariants (t : List Char) (chunk_size overlap : ℕ) :
    (chunk_text t chunk_size overlap).map DPChunk.id =
      List.range (chunk_text t chunk_size overlap).length
    ∧ ∀ r ∈ chunk_text t chunk_size overlap,
        pstrip r.content ≠ [] ∧ r.content.length ≤ r.length :=
  chunkTextLoop_invariants chunk_size overlap _ [] [] rfl (by intro r hr; cases hr)
    (Or.inl rfl)

theorem chunk_text_invariants_witness :
    pstrip ((⟨"Hello World".data, 12, 0⟩ : DPChunk)).content ≠ []
    ∧ ((⟨"Hello World".data, 12, 0⟩ : DPChunk)).content.length ≤
      ((⟨"Hello World".data, 12, 0⟩ : DPChunk)).length :=
  (chunk_text_invariants "Hello. World.".data 500 50).2 _ (by decide)

/-! ### C1 and C6: ranking order, selection and slicing -/

theorem sorted_lexAsc_orderedInsert (sims : List ℝ) (i : ℕ) :
    ∀ s : List ℕ, List.Sorted (lexAscSim sims) s → (∀ j ∈ s, i < j) →
      List.Sorted (lexAscSim sims) (List.orderedInsert (simLe sims) i s) := by
  intro s
  induction s with
  | nil =>
    intro _ _
    simp [List.orderedInsert]
  | cons j s' ih =>
    intro hs hlt
    simp only [List.orderedInsert]
    by_cases h : simLe sims i j
    · rw [if_pos h]
      have hle : simOf sims i ≤ simOf sims j := h
      rw [List.sorted_cons]
      refine ⟨?_, hs⟩
      intro b hb
      have hij : i < j := hlt j (List.mem_cons_self ..)
      rcases List.mem_cons.1 hb with rfl | hb'
      · rcases lt_or_eq_of_le hle with hlt' | heq
        · exact Or.inl hlt'
        · exact Or.inr ⟨heq, le_of_lt hij⟩
      · have hjb := (List.sorted_cons.1 hs).1 b hb'
        have hkey : simOf sims j ≤ simOf sims b := by
          rcases hjb with h1 | h1
          · exact le_of_lt h1
          · exact le_of_eq h1.1
        rcases lt_or_eq_of_le (le_trans hle hkey) with h2 | h2
        · exact Or.inl h2
        · exact Or.inr ⟨h2, le_of_lt (hlt b (List.mem_cons.2 (Or.inr hb')))⟩
    · rw [if_neg h]
      have hgt : simOf sims j < simOf sims i := lt_of_not_le h
      rw [List.sorted_cons]
      constructor
      · intro b hb
        rcases (List.mem_orderedInsert _).1 hb with rfl | hb'
        · exact Or.inl hgt
        · exact (List.sorted_cons.1 hs).1 b hb'
      · exact ih (List.sorted_cons.1 hs).2
          (fun b hb => hlt b (List.mem_cons.2 (Or.inr hb)))

theorem sorted_lexAsc_insertionSort (sims : List ℝ) :
    ∀ l : List ℕ, l.Pairwise (· < ·) →
      List.Sorted (lexAscSim sims) (List.insertionSort (simLe sims) l) := by
  intro l
  induction l with
  | nil => intro _; simp [List.insertionSort]
  | cons b l ih =>
    intro hp
    rw [List.insertionSort]
    apply sorted_lexAsc_orderedInsert
    · exact ih (List.Pairwise.of_cons hp)
    · intro j hj
      exact (List.pairwise_cons.1 hp).1 j (((List.perm_insertionSort _ l).mem_iff).1 hj)

theorem argsortAsc_sorted (sims : List ℝ) :
    List.Sorted (lexAscSim sims) (argsortAsc sims) :=
  sorted_lexAsc_insertionSort sims _ (List.pairwise_lt_range _)

theorem argsortAsc_perm (sims : List ℝ) :
    (argsortAsc sims).Perm (List.range sims.length) :=
  List.perm_insertionSort ..

theorem argsortAsc_length (sims : List ℝ) : (argsortAsc sims).length = sims.length := by
  unfold argsortAsc
  rw [List.length_insertionSort, List.length_range]

theorem simsOf_length (qe : List ℝ) (kb : List (List ℝ × String)) :
    (simsOf qe kb).length = kb.length := by
  simp [simsOf]

theorem distOf_distListOf (qe : List ℝ) (kb : List (List ℝ × String)) (i : ℕ)
    (hi : i < kb.length) :
    distOf (distListOf qe kb) i = 1 - simOf (simsOf qe kb) i := by
  unfold distListOf distOf simOf
  have hi' : i < (simsOf qe kb).length := by rw [simsOf_length]; exact hi
  rw [List.getD_eq_getElem?_getD, List.getElem?_map, List.getD_eq_getElem?_getD,
    List.getElem?_eq_getElem hi']
  rfl

theorem flip_lexAsc_imp_specLeRev (qe : List ℝ) (kb : List (List ℝ × String))
    (i j : ℕ) (hi : i < kb.length) (hj : j < kb.length)
    (h : lexAscSim (simsOf qe kb) j i) : specLeRev (distListOf qe kb) i j := by
  unfold lexAscSim at h
  unfold specLeRev
  rw [distOf_distListOf qe kb i hi, distOf_distListOf qe kb j hj]
  rcases h with h | h
  · exact Or.inl (by linarith)
  · exact Or.inr ⟨by rw [h.1], h.2⟩

theorem specLeRev_total (d : List ℝ) : ∀ i j, specLeRev d i j ∨ specLeRev d j i := by
  intro i j
  unfold specLeRev
  rcases lt_trichotomy (distOf d i) (distOf d j) with h | h | h
  · exact Or.inl (Or.inl h)
  · rcases Nat.le_total j i with h2 | h2
    · exact Or.inl (Or.inr ⟨h, h2⟩)
    · exact Or.inr (Or.inr ⟨h.symm, h2⟩)
  · exact Or.inr (Or.inl h)

theorem specLeRev_trans (d : List ℝ) :
    ∀ i j l, specLeRev d i j → specLeRev d j l → specLeRev d i l := by
  intro i j l hij hjl
  unfold specLeRev at *
  rcases hij with h1 | h1 <;> rcases hjl with h2 | h2
  · exact Or.inl (lt_trans h1 h2)
  · exact Or.inl (by rw [← h2.1]; exact h1)
  · exact Or.inl (by rw [h1.1]; exact h2)
  · exact Or.inr ⟨h1.1.trans h2.1, h2.2.trans h1.2⟩

theorem specLeRev_antisymm (d : List ℝ) :
    ∀ i j, specLeRev d i j → specLeRev d j i → i = j := by
  intro i j hij hji
  unfold specLeRev at *
  rcases hij with h1 | h1 <;> rcases hji with h2 | h2
  · exact absurd h2 (lt_asymm h1)
  · exact absurd h1 (by rw [h2.1]; exact lt_irrefl _)
  · exact absurd h2 (by rw [h1.1]; exact lt_irrefl _)
  · exact Nat.le_antisymm h2.2 h1.2

theorem argsort_reverse_eq_specOrdRev (qe : List ℝ) (kb : List (List ℝ × String)) :
    (argsortAsc (simsOf qe kb)).reverse =
    List.insertionSort (specLeRev (distListOf qe kb)) (List.range kb.length) := by
  haveI : IsTotal ℕ (specLeRev (distListOf qe kb)) := ⟨specLeRev_total _⟩
  haveI : IsTrans ℕ (specLeRev (distListOf qe kb)) :=
    ⟨fun a b c => specLeRev_trans _ a b c⟩
  haveI : IsAntisymm ℕ (specLeRev (distListOf qe kb)) :=
    ⟨fun a b => specLeRev_antisymm _ a b⟩
  have hmem : ∀ a ∈ (argsortAsc (simsOf qe kb)).reverse, a < kb.length := by
    intro a ha
    rw [List.mem_reverse] at ha
    have := (argsortAsc_perm _).mem_iff.1 ha
    rw [simsOf_length] at this
    exact List.mem_range.1 this
  refine List.eq_of_perm_of_sorted (r := specLeRev (distListOf qe kb)) ?_ ?_
    (List.sorted_insertionSort ..)
  · have h1 : (argsortAsc (simsOf qe kb)).Perm (List.range kb.length) := by
      rw [← simsOf_length qe kb]
      exact argsortAsc_perm _
    exact (List.reverse_perm _).trans (h1.trans (List.perm_insertionSort ..).symm)
  · have hs := argsortAsc_sorted (simsOf qe kb)
    have hrev : (argsortAsc (simsOf qe kb)).reverse.Pairwise
        (fun a b => lexAscSim (simsOf qe kb) b a) := List.pairwise_reverse.2 hs
    exact hrev.imp_of_mem
      (fun ha hb hab => flip_lexAsc_imp_specLeRev qe kb _ _ (hmem _ ha) (hmem _ hb) hab)

/-- Counterexample to claim C1 as stated: two records with identical
vectors are at the exact same cosine distance from the query.  The code
returns them in reverse insertion order (`["b", "a"]`), because
`argsort()[-top_k:][::-1]` reverses the stable ascending order, while the
claim's insertion-order tie-break would return `["a", "b"]`. -/
theorem rank_tie_order_reversed :
    rank [(1 : ℝ)] [([(1 : ℝ)], "a"), ([(1 : ℝ)], "b")] 2 = ["b", "a"]
    ∧ rankSpecStable [(1 : ℝ)] [([(1 : ℝ)], "a"), ([(1 : ℝ)], "b")] 2 = ["a", "b"] := by
  have hsims : simsOf [(1 : ℝ)] [([(1 : ℝ)], "a"), ([(1 : ℝ)], "b")] =
      [cosineSim [1] [1], cosineSim [1] [1]] := by
    simp [simsOf]
  constructor
  · have hargsort : argsortAsc [cosineSim [(1 : ℝ)] [1], cosineSim [(1 : ℝ)] [1]] = [0, 1] := by
      unfold argsortAsc
      rw [show List.range ([cosineSim [(1 : ℝ)] [1], cosineSim [(1 : ℝ)] [1]]).length = [0, 1]
        from rfl]
      simp only [List.insertionSort, List.orderedInsert]
      rw [if_pos (show simLe [cosineSim [(1 : ℝ)] [1], cosineSim [(1 : ℝ)] [1]] 0 1
        from le_refl _)]
    simp only [rank]
    rw [if_neg (by simp), hsims, hargsort, pySliceFrom_neg _ _ (by norm_num)]
    norm_num
    simp [chunkAt]
  · have hd : distListOf [(1 : ℝ)] [([(1 : ℝ)], "a"), ([(1 : ℝ)], "b")] =
        [1 - cosineSim [1] [1], 1 - cosineSim [1] [1]] := by
      simp [distListOf, simsOf]
    have hsort : List.insertionSort
        (specLeStable [1 - cosineSim [(1 : ℝ)] [1], 1 - cosineSim [(1 : ℝ)] [1]]) [0, 1] =
        [0, 1] := by
      simp only [List.insertionSort, List.orderedInsert]
      rw [if_pos (show specLeStable
        [1 - cosineSim [(1 : ℝ)] [1], 1 - cosineSim [(1 : ℝ)] [1]] 0 1
        from Or.inr ⟨rfl, by omega⟩)]
    simp only [rankSpecStable]
    rw [hd, show List.range (List.length [([(1 : ℝ)], "a"), ([(1 : ℝ)], "b")]) = [0, 1]
      from rfl, hsort]
    simp [chunkAt]

/-- Claim C1 (amended): for every nonempty index and `topK > 0`, `rank`
returns the first `min(topK, size)` chunks ordered ascending by cosine
distance to the query — with exact distance ties broken in *reverse*
insertion order (newest record first): the trailing `[::-1]` of
`argsort()[-top_k:][::-1]` flips the stable ascending argsort, so on ties
larger indices come out first. -/
theorem rank_matches_spec_rev_ties (qe : List ℝ) (kb : List (List ℝ × String)) (k : ℤ)
    (hkb : kb ≠ []) (hk : 0 < k) :
    rank qe kb k = rankSpecRev qe kb k := by
  simp only [rank, rankSpecRev]
  rw [if_neg hkb, pySliceFrom_neg _ _ (by omega), List.reverse_drop,
    argsort_reverse_eq_specOrdRev]
  have harith : (argsortAsc (simsOf qe kb)).length -
      ((argsortAsc (simsOf qe kb)).length - (- -k).toNat) = min k.toNat kb.length := by
    rw [argsortAsc_length, simsOf_length]
    omega
  rw [harith]

theorem rank_matches_spec_rev_ties_witness :
    rank [(1 : ℝ)] [([(1 : ℝ)], "a")] 1 = rankSpecRev [(1 : ℝ)] [([(1 : ℝ)], "a")] 1 :=
  rank_matches_spec_rev_ties [(1 : ℝ)] [([(1 : ℝ)], "a")] 1 (by simp) (by norm_num)

/-- Counterexample to claim C6 as stated: on a one-record index,
`rank` with `top_k = 0` returns that record's chunk, not the empty
sequence — the Python slice `argsort()[-0:]` is `argsort()[0:]`, the whole
array. -/
theorem rank_topk_zero_not_empty :
    rank [(1 : ℝ)] [([(1 : ℝ)], "a")] 0 = ["a"] := by
  have hargsort : argsortAsc (simsOf [(1 : ℝ)] [([(1 : ℝ)], "a")]) = [0] := by
    unfold argsortAsc
    rw [show List.range ((simsOf [(1 : ℝ)] [([(1 : ℝ)], "a")])).length = [0] from rfl]
    simp only [List.insertionSort, List.orderedInsert]
  simp only [rank]
  rw [if_neg (by simp), hargsort, pySliceFrom_nonneg _ _ (by norm_num)]
  simp [chunkAt]

/-- Claim C6 (amended): `rank` on an empty index returns `[]` for every
`topK` (not an error); but `rank` with `topK ≤ 0` on a nonempty index does
*not* return the empty sequence: it returns the `size + topK` closest
chunks (all of them when `topK = 0`) in ascending-distance order, because
the slice `argsort()[-top_k:]` with `-top_k ≥ 0` drops the `|topK|`
worst-ranked indices instead of selecting none. -/
theorem rank_nonpositive_topk (qe : List ℝ) (kb : List (List ℝ × String)) (k : ℤ) :
    rank qe [] k = []
    ∧ (k ≤ 0 → kb ≠ [] → rank qe kb k = rankSpecRev qe kb ((kb.length : ℤ) + k)) := by
  constructor
  · simp [rank]
  · intro hk hkb
    simp only [rank, rankSpecRev]
    rw [if_neg hkb, pySliceFrom_nonneg _ _ (by omega), List.reverse_drop,
      argsort_reverse_eq_specOrdRev]
    have harith : (argsortAsc (simsOf qe kb)).length - (-k).toNat =
        min ((kb.length : ℤ) + k).toNat kb.length := by
      rw [argsortAsc_length, simsOf_length]
      omega
    rw [harith]

theorem rank_nonpositive_topk_witness :
    rank [(1 : ℝ)] ([] : List (List ℝ × String)) 5 = []
    ∧ rank [(1 : ℝ)] [([(1 : ℝ)], "a")] 0 =
      rankSpecRev [(1 : ℝ)] [([(1 : ℝ)], "a")]
        ((List.length [([(1 : ℝ)], "a")] : ℤ) + 0) :=
  ⟨(rank_nonpositive_topk [(1 : ℝ)] ([] : List (List ℝ × String)) 5).1,
   (rank_nonpositive_topk [(1 : ℝ)] [([(1 : ℝ)], "a")] 0).2 (by norm_num) (by simp)⟩
